import Mathlib

/-!
# Verification of the PRESENT repository's transcript-analysis and glue code

Shallow embedding of the pure parts of the repository:

* `src/present/src/present/tools/youtube_tool.py` (`YouTubeTranscriptTool`)
* `src/present/src/present/tools/enhanced_youtube_tool.py`
  (`EnhancedYouTubeTranscriptTool`)
* `src/crewai/ai-tinkerers-hack-main/src/present/tools/enhanced_youtube_tool.py`
  (`_extract_video_info`)
* `src/present/src/present/api.py` (`analyze_youtube` endpoint)
* `src/livekit-backend/tools.py` (`send_task_to_frontend`)
* `src/livekit-backend/transcription.py` (`TranscriptionHandler.process_stt_stream`)

Python `dict`s with string keys are embedded as association lists in
insertion order (`PyDict α := List (String × α)`), Python floats as `ℚ`
(the arithmetic performed by the code — floor division, modulus, `int`
truncation — is exact on rationals), and external I/O (HTTP calls,
transcript fetches, RPC) as explicit oracle arguments.
-/

set_option autoImplicit false

namespace Present

/-! ## Python `dict` model: association lists in insertion order -/

/-- A Python `dict` with `String` keys: an association list in insertion
order, with at most one entry per key in any dict actually built by the
code (`keysNodup` below). -/
abbrev PyDict (α : Type) : Type := List (String × α)

namespace PyDict

variable {α : Type}

/-- `d[k]` lookup: the value at the first entry with key `k`. -/
def dget (d : PyDict α) (k : String) : Option α :=
  match d with
  | [] => none
  | (k', v) :: rest => if k' = k then some v else dget rest k

/-- `d[k] = v`: overwrite the first entry with key `k` in place, else
append a new entry at the end (Python dict insertion-order semantics). -/
def dset (d : PyDict α) (k : String) (v : α) : PyDict α :=
  match d with
  | [] => [(k, v)]
  | (k', v') :: rest => if k' = k then (k', v) :: rest else (k', v') :: dset rest k v

/-- `d[k] = f d[k]`: apply `f` to the value at the first entry with key
`k`; a no-op when `k` is absent. -/
def dmodify (d : PyDict α) (k : String) (f : α → α) : PyDict α :=
  match d with
  | [] => []
  | (k', v) :: rest => if k' = k then (k', f v) :: rest else (k', v) :: dmodify rest k f

/-- `list(d.keys())` in insertion order. -/
def keys (d : PyDict α) : List String := d.map Prod.fst

/-- The invariant of every genuine Python dict: one entry per key. -/
abbrev keysNodup (d : PyDict α) : Prop := (keys d).Nodup

end PyDict

/-! ## Python numeric primitives on `ℚ` (embedding `float` arithmetic) -/

/-- Python `int(x)`: truncation toward zero (`-Rat.floor (-q)` is the
ceiling; `Rat.floor` is the kernel-computable floor, equal to `⌊·⌋` by
`ratFloor_eq_floor` below). -/
def pyInt (q : ℚ) : ℤ := if q < 0 then -Rat.floor (-q) else Rat.floor q

/-- Python `x // y` on numbers (floor division), as a rational. -/
def pyFloorDiv (x y : ℚ) : ℚ := ((Rat.floor (x / y) : ℤ) : ℚ)

/-- Python `x % y` on numbers: `x - y * (x // y)`, in `[0, y)` for `y > 0`. -/
def pyMod (x y : ℚ) : ℚ := x - y * pyFloorDiv x y

/-- Python `f"{n:02d}"`: decimal rendering left-padded with `0` to width 2. -/
def pad2 (n : ℤ) : String :=
  let s := toString n
  if s.length < 2 then "0" ++ s else s

/-! ## Transcript data model -/

/-- One transcript segment as returned by `youtube_transcript_api`:
a dict with a `'text'` string and a numeric `'start'` time. -/
structure Segment where
  text : String
  start : ℚ
  deriving Repr, DecidableEq

/-- One topic mention as built by `_find_topic_mentions`
(youtube_tool.py lines 176–181). -/
structure Mention where
  timestamp : String
  youtube_timestamp : ℤ
  time_in_seconds : ℚ
  text : String
  deriving Repr, DecidableEq

/-- A mention extended with the `'timestamp_link'` field added by
`_generate_timestamp_links` (`{**occurrence, 'timestamp_link': link}`). -/
structure LinkedMention extends Mention where
  timestamp_link : String
  deriving Repr, DecidableEq

/-- Python `s.lower()` (ASCII case mapping, applied character-wise like
`str.lower`). -/
def strLower (s : String) : String := String.mk (s.toList.map Char.toLower)

/-- Contiguous-sublist test on character lists. -/
def listContains : List Char → List Char → Bool
  | hay, needle =>
    if needle.isPrefixOf hay then true
    else
      match hay with
      | [] => false
      | _ :: t => listContains t needle

/-- Python `topic_lower in text` (substring containment, where the empty
string is contained in everything). -/
def strContains (hay needle : String) : Bool :=
  listContains hay.toList needle.toList

/-! ## `YouTubeTranscriptTool` (youtube_tool.py) -/

namespace YT

/-- The mention dict appended for a matching segment
(youtube_tool.py lines 168–181): `minutes = int(start_time // 60)`,
`seconds = int(start_time % 60)`, `timestamp = f"{minutes:02d}:{seconds:02d}"`,
`youtube_timestamp = int(start_time)`. -/
def mkMention (seg : Segment) : Mention :=
  { timestamp := pad2 (pyInt (pyFloorDiv seg.start 60)) ++ ":" ++
      pad2 (pyInt (pyMod seg.start 60))
    youtube_timestamp := pyInt seg.start
    time_in_seconds := seg.start
    text := seg.text }

/-- `topic.lower() in segment['text'].lower()` (youtube_tool.py 162–167). -/
def topicMatches (topic : String) (seg : Segment) : Bool :=
  strContains (strLower seg.text) (strLower topic)

/-- `_find_topic_mentions` (youtube_tool.py lines 155–189):
`results = {topic: [] for topic in topics}`, then for each segment and
each topic whose lowering is a substring of the segment's lowered text,
append the mention to `results[topic]`. -/
def find_topic_mentions (transcript : List Segment) (topics : List String) :
    PyDict (List Mention) :=
  let init : PyDict (List Mention) := topics.foldl (fun d t => d.dset t []) []
  transcript.foldl
    (fun res seg =>
      topics.foldl
        (fun res topic =>
          if topicMatches topic seg then
            res.dmodify topic (fun ms => ms ++ [mkMention seg])
          else res)
        res)
    init

/-- The timestamp link generated for one occurrence
(youtube_tool.py lines 199–205). -/
def mkLinked (video_id : String) (occ : Mention) : LinkedMention :=
  { occ with
    timestamp_link :=
      "https://www.youtube.com/watch?v=" ++ video_id ++ "&t=" ++
        toString (pyInt occ.time_in_seconds) ++ "s" }

/-- `_generate_timestamp_links` (youtube_tool.py lines 191–210):
`result = {}`; for each `(topic, occurrences)` item of `mentions`,
`result[topic] = []` and then each occurrence, extended with its
`timestamp_link`, is appended to `result[topic]`. -/
def generate_timestamp_links (video_id : String)
    (mentions : PyDict (List Mention)) : PyDict (List LinkedMention) :=
  mentions.foldl
    (fun res (entry : String × List Mention) =>
      entry.2.foldl
        (fun res occ =>
          res.dmodify entry.1 (fun ls => ls ++ [mkLinked video_id occ]))
        (res.dset entry.1 []))
    []

end YT

/-- Python single-character `s.split(sep)`: split at every occurrence of
`sep`; always returns a non-empty list, with empty pieces kept. -/
def pySplit (sep : Char) : List Char → List (List Char)
  | [] => [[]]
  | c :: t =>
    if c = sep then [] :: pySplit sep t
    else
      match pySplit sep t with
      | h :: rs => (c :: h) :: rs
      | [] => [[c]]

/-- The regex atom `v=([^&]+)` anchored at the head of the list: succeeds
when the list starts with `v=` followed by at least one character other
than `&`; the group is the maximal such run. -/
def vEqAt : List Char → Option (List Char)
  | c1 :: c2 :: rest =>
    if c1 = 'v' ∧ c2 = '=' then
      let g := rest.takeWhile (fun c => c ≠ '&')
      if g = [] then none else some g
    else none
  | _ => none

/-- `re.search(r'v=([^&]+)', url)`: try `vEqAt` at each position, left to
right, returning the first group found. -/
def searchVEq : List Char → Option (List Char)
  | [] => none
  | c :: t =>
    match vEqAt (c :: t) with
    | some g => some g
    | none => searchVEq t

namespace YT

/-- `_extract_video_id` (youtube_tool.py lines 88–102):
`url.split("/")[-1].split("?")[0]` when `"youtu.be" in url`, the
`v=([^&]+)` regex group when `"youtube.com/watch" in url` and the regex
matches, and the input unchanged otherwise.  The `except` arm of the
source is unreachable (no raising operation occurs in the body). -/
def extract_video_id (url : String) : String :=
  if strContains url "youtu.be" then
    String.mk ((pySplit '?' ((pySplit '/' url.toList).getLastD [])).headD [])
  else if strContains url "youtube.com/watch" then
    match searchVEq url.toList with
    | some g => String.mk g
    | none => url
  else url

/-- `_get_video_details` (youtube_tool.py lines 104–138): the external
YouTube Data API call is an oracle; on any API failure the source
catches and returns the fallback dict. -/
def get_video_details (api : Except String (PyDict String)) : PyDict String :=
  match api with
  | .ok d => d
  | .error e =>
    [("title", "Unknown"), ("channel", "Unknown"),
     ("description", "Error: " ++ e)]

/-- `_get_transcript` (youtube_tool.py lines 140–153): the external
`youtube_transcript_api` call is an oracle; on any failure the source
catches and returns `[]`. -/
def get_transcript (api : Except String (List Segment)) : List Segment :=
  match api with
  | .ok t => t
  | .error _ => []

/-- The success dict built at youtube_tool.py lines 69–78. -/
structure RunOk where
  video_details : PyDict String
  topic_mentions : PyDict (List Mention)
  timestamp_links : PyDict (List LinkedMention)
  mention_counts : PyDict Nat
  transcript_length : Nat
  video_id : String
  video_url : String
  deriving Repr, DecidableEq

/-- The failure dict built at youtube_tool.py lines 52–56 (the
`except` arm at lines 82–86 is unreachable in the embedding because
every helper catches its own exceptions). -/
structure RunErr where
  error : String
  video_details : Option (PyDict String)
  deriving Repr, DecidableEq

/-- Result of `YouTubeTranscriptTool._run`: a dict that always carries a
`'success'` key — `ok` embeds `success = True`, `err` embeds
`success = False` together with the mandatory `'error'` field. -/
inductive RunResult where
  | ok (r : RunOk)
  | err (e : RunErr)
  deriving Repr, DecidableEq

/-- The `'success'` field of the result dict. -/
def RunResult.success : RunResult → Bool
  | .ok _ => true
  | .err _ => false

/-- The `'error'` field of the result dict, when present. -/
def RunResult.errorMsg : RunResult → Option String
  | .ok _ => none
  | .err e => some e.error

/-- `{topic: len(mentions) for topic, mentions in topic_mentions.items()}`
(youtube_tool.py line 66). -/
def mention_counts_of (topic_mentions : PyDict (List Mention)) : PyDict Nat :=
  topic_mentions.foldl (fun d e => d.dset e.1 e.2.length) []

/-- `YouTubeTranscriptTool._run` (youtube_tool.py lines 20–86), with the
two external API calls passed as oracles.  Mirrors the source: extract
the id, fetch details and transcript, fail when the transcript is empty,
otherwise assemble mentions, links and counts. -/
def run_tool (video_url : String) (topics : List String)
    (detailsApi : Except String (PyDict String))
    (transcriptApi : Except String (List Segment)) : RunResult :=
  let video_id := extract_video_id video_url
  let video_details := get_video_details detailsApi
  let transcript := get_transcript transcriptApi
  if transcript = [] then
    .err { error := "Could not retrieve transcript for this video"
           video_details := some video_details }
  else
    let topic_mentions := find_topic_mentions transcript topics
    let timestamp_links := generate_timestamp_links video_id topic_mentions
    .ok { video_details := video_details
          topic_mentions := topic_mentions
          timestamp_links := timestamp_links
          mention_counts := mention_counts_of topic_mentions
          transcript_length := transcript.length
          video_id := video_id
          video_url := "https://www.youtube.com/watch?v=" ++ video_id }

end YT

/-! ## `EnhancedYouTubeTranscriptTool` (enhanced_youtube_tool.py):
the transcript-analysis core duplicated at lines 362–417. -/

namespace Enh

/-- The mention dict appended for a matching segment
(enhanced_youtube_tool.py lines 375–388). -/
def mkMention (seg : Segment) : Mention :=
  { timestamp := pad2 (pyInt (pyFloorDiv seg.start 60)) ++ ":" ++
      pad2 (pyInt (pyMod seg.start 60))
    youtube_timestamp := pyInt seg.start
    time_in_seconds := seg.start
    text := seg.text }

/-- `topic.lower() in segment['text'].lower()`
(enhanced_youtube_tool.py 369–374). -/
def topicMatches (topic : String) (seg : Segment) : Bool :=
  strContains (strLower seg.text) (strLower topic)

/-- `_find_topic_mentions` (enhanced_youtube_tool.py lines 362–396). -/
def find_topic_mentions (transcript : List Segment) (topics : List String) :
    PyDict (List Mention) :=
  let init : PyDict (List Mention) := topics.foldl (fun d t => d.dset t []) []
  transcript.foldl
    (fun res seg =>
      topics.foldl
        (fun res topic =>
          if topicMatches topic seg then
            res.dmodify topic (fun ms => ms ++ [mkMention seg])
          else res)
        res)
    init

/-- The timestamp link generated for one occurrence
(enhanced_youtube_tool.py lines 406–412). -/
def mkLinked (video_id : String) (occ : Mention) : LinkedMention :=
  { occ with
    timestamp_link :=
      "https://www.youtube.com/watch?v=" ++ video_id ++ "&t=" ++
        toString (pyInt occ.time_in_seconds) ++ "s" }

/-- `_generate_timestamp_links` (enhanced_youtube_tool.py lines 398–417). -/
def generate_timestamp_links (video_id : String)
    (mentions : PyDict (List Mention)) : PyDict (List LinkedMention) :=
  mentions.foldl
    (fun res (entry : String × List Mention) =>
      entry.2.foldl
        (fun res occ =>
          res.dmodify entry.1 (fun ls => ls ++ [mkLinked video_id occ]))
        (res.dset entry.1 []))
    []

end Enh

/-! ## FastAPI endpoint `analyze_youtube` (api.py lines 63–126) -/

namespace Api

/-- A raised `fastapi.HTTPException`, carrying the HTTP status and the
`detail` string. -/
structure HTTPExc where
  status_code : Nat
  detail : String
  deriving Repr, DecidableEq

/-- A Python exception value as it reaches `except Exception as e`:
either an `HTTPException` (which subclasses `Exception` and is therefore
caught by the blanket handler) or any other exception, carried as its
message. -/
inductive PyExc where
  | http (e : HTTPExc)
  | other (msg : String)
  deriving Repr, DecidableEq

/-- Python `str(e)`: Starlette's `HTTPException.__str__` renders
`f"{status_code}: {detail}"`; other exceptions render their message. -/
def PyExc.str : PyExc → String
  | .http e => toString e.status_code ++ ": " ++ e.detail
  | .other m => m

/-- The `ApiResponse` model (api.py lines 27–29). -/
structure ApiResponse where
  results : String
  status : String
  deriving Repr, DecidableEq

/-- The `analyze-youtube` endpoint (api.py lines 63–126), with the crew
execution passed as an oracle (`kick`: what `youtube_crew.kickoff`
returns, or the exception it raises).  Returns the HTTP outcome together
with the number of crew kickoffs performed.

The body of the `try:` block raises `HTTPException(400, ...)` when both
`video_url` and `query` are absent; because `except Exception as e:`
(api.py lines 122–126) also catches `HTTPException`, every exception of
the body — the 400 included — is re-raised as
`HTTPException(500, f"An error occurred: {str(e)}")`. -/
def analyze_youtube (video_url query : Option String)
    (kick : Except String String) : Except HTTPExc ApiResponse × Nat :=
  let body : Except PyExc String × Nat :=
    if video_url = none ∧ query = none then
      (Except.error (.http { status_code := 400
                             detail := "Either video_url or query must be provided" }), 0)
    else
      match kick with
      | .ok results => (.ok results, 1)
      | .error e => (.error (.other e), 1)
  match body with
  | (.ok results, n) => (.ok { results := results, status := "success" }, n)
  | (.error e, n) =>
    (.error { status_code := 500, detail := "An error occurred: " ++ e.str }, n)

end Api

/-! ## LiveKit backend: `send_task_to_frontend` (tools.py lines 69–103) -/

namespace LiveKit

/-- Outcome of one `perform_rpc` call to a participant: a response, a
`TimeoutError`, or any other exception. -/
inductive RpcOutcome where
  | ok (resp : String)
  | timeout
  | exc (msg : String)
  deriving Repr, DecidableEq

/-- The dict returned by `send_task_to_frontend`. -/
structure ToolResult where
  status : String
  message : String
  frontend_response : Option String
  deriving Repr, DecidableEq

/-- `send_task_to_frontend` (tools.py lines 69–103), with the room's
remote participants and the RPC outcome as oracles.  Returns the result
dict together with the list of participants that were sent an RPC.

The `for` loop over `room.remote_participants` returns inside its first
iteration in every branch (`try` return, `except TimeoutError` return,
`except Exception` return), so only the first participant is ever
addressed. -/
def send_task_to_frontend (task_type : String)
    (participants : List String) (rpc : String → RpcOutcome) :
    ToolResult × List String :=
  match participants with
  | [] =>
    ({ status := "ERROR"
       message := "No remote participants to send the task to."
       frontend_response := none }, [])
  | p :: _ =>
    match rpc p with
    | .ok resp =>
      ({ status := "SUCCESS"
         message := "Task '" ++ task_type ++ "' successfully dispatched."
         frontend_response := some resp }, [p])
    | .timeout =>
      ({ status := "ERROR"
         message := "RPC timeout for task '" ++ task_type ++ "'."
         frontend_response := none }, [p])
    | .exc m =>
      ({ status := "ERROR"
         message := "RPC error for task '" ++ task_type ++ "': " ++ m
         frontend_response := none }, [p])

end LiveKit

/-! ## LiveKit backend: `TranscriptionHandler.process_stt_stream`
(transcription.py lines 16–44) -/

namespace Transcription

/-- The `stt.SpeechEventType` values distinguished by the handler. -/
inductive EvType where
  | finalTranscript
  | interimTranscript
  | otherEvent
  deriving Repr, DecidableEq

/-- One STT alternative (only its text matters here). -/
structure Alt where
  text : String
  deriving Repr, DecidableEq

/-- One `stt.SpeechEvent` yielded by the default STT node. -/
structure SpeechEvent where
  type : EvType
  alternatives : List Alt
  deriving Repr, DecidableEq

/-- Whether handling `e` reaches `event.alternatives[0]`
(transcription.py lines 48 and 62) on an empty list, raising
`IndexError` out of the generator.  `_broadcast_transcription` itself
catches every exception (lines 76–92), so this is the only way the
enabled path can fail. -/
def handlerCrashes (e : SpeechEvent) : Bool :=
  (e.type == EvType.finalTranscript || e.type == EvType.interimTranscript)
    && e.alternatives.isEmpty

/-- The enabled path of `process_stt_stream` (lines 36–44): handle each
event (broadcasting final/interim transcripts), then yield it.  Returns
the yielded events and whether the generator died with an uncaught
`IndexError` (dropping that event and all later ones). -/
def processEnabled : List SpeechEvent → List SpeechEvent × Bool
  | [] => ([], false)
  | e :: rest =>
    if handlerCrashes e then ([], true)
    else
      let (ys, c) := processEnabled rest
      (e :: ys, c)

/-- `process_stt_stream` (transcription.py lines 16–44), with the event
sequence produced by `agent_instance.default_stt_node` as the input.
When transcription is disabled the events are passed through unchanged
(lines 24–28); when enabled, each event is handled then yielded
(lines 36–44). -/
def process_stt_stream (enable_transcription : Bool)
    (events : List SpeechEvent) : List SpeechEvent × Bool :=
  if enable_transcription then processEnabled events
  else (events, false)

end Transcription

/-! ## crewai variant: `_extract_video_info`
(src/crewai/.../tools/enhanced_youtube_tool.py lines 204–247) -/

namespace CrewaiEnh

/-- The regex character class `[a-zA-Z0-9_-]`. -/
def isIdChar (c : Char) : Bool :=
  (('a' ≤ c && c ≤ 'z') || ('A' ≤ c && c ≤ 'Z') || ('0' ≤ c && c ≤ '9')
    || c = '_' || c = '-')

/-- Match a literal pattern at the head of the list, returning the
remainder on success. -/
def stripLit : List Char → List Char → Option (List Char)
  | [], cs => some cs
  | _ :: _, [] => none
  | p :: ps, c :: cs => if c = p then stripLit ps cs else none

/-- Final stage of the anchored URL match: the group `([a-zA-Z0-9_-]+)`
— a greedy, non-empty run of ID characters — after the already-consumed
scheme (`sPart`/`wPart`) and host (`hPart`) literals. -/
def idTail (sPart wPart hPart r4 : List Char) :
    Option (List Char × List Char × List Char) :=
  let idc := r4.takeWhile isIdChar
  if idc = [] then none
  else
    some ("http".toList ++ sPart ++ "://".toList ++ wPart ++ hPart ++ idc,
          idc, r4.drop idc.length)

/-- The alternation `(?:youtube\.com/watch\?v=|youtu\.be/)`.  The two
literals diverge at their sixth character, so the regex engine's
left-to-right preference never needs backtracking. -/
def hostSplit (r3 : List Char) : Option (List Char × List Char) :=
  match stripLit "youtube.com/watch?v=".toList r3 with
  | some r4 => some ("youtube.com/watch?v=".toList, r4)
  | none =>
    match stripLit "youtu.be/".toList r3 with
    | some r4 => some ("youtu.be/".toList, r4)
    | none => none

/-- Host alternation followed by the ID group. -/
def afterWww (sPart wPart r3 : List Char) :
    Option (List Char × List Char × List Char) :=
  match hostSplit r3 with
  | none => none
  | some (hPart, r4) => idTail sPart wPart hPart r4

/-- The literal `://`, then the optional `(?:www\.)?` — when `www.` does
not match, the host must (both host literals start with `y`, never `w`,
so skipping `www.` is forced exactly when it does not match. -/
def afterScheme (sPart r1 : List Char) :
    Option (List Char × List Char × List Char) :=
  match stripLit "://".toList r1 with
  | none => none
  | some r2 =>
    match stripLit "www.".toList r2 with
    | some r3 => afterWww sPart "www.".toList r3
    | none => afterWww sPart [] r2

/-- Anchor the regex
`https?://(?:www\.)?(?:youtube\.com/watch\?v=|youtu\.be/)([a-zA-Z0-9_-]+)`
at the head of `cs`, returning `(whole match, group 1, remainder)`.
Every optional/alternative branch point of this regex is deterministic
(after `http`, an `s` must be consumed exactly when present because the
next required literal starts with `:`; `www.` likewise against the
following `y`; the host alternatives diverge at their sixth character),
so the backtracking engine and this straight-line matcher agree. -/
def matchUrlAt (cs : List Char) : Option (List Char × List Char × List Char) :=
  match stripLit "http".toList cs with
  | none => none
  | some r0 =>
    if r0.head? = some 's' then afterScheme ['s'] r0.tail
    else afterScheme [] r0

/-- `re.finditer` driver with explicit fuel: try the anchored match at
each position left to right; on success record it and resume after the
matched text (matches never overlap). -/
def scanUrlsFuel : Nat → List Char → List (List Char × List Char)
  | 0, _ => []
  | _ + 1, [] => []
  | n + 1, c :: t =>
    match matchUrlAt (c :: t) with
    | some (m, i, rest) => (m, i) :: scanUrlsFuel n rest
    | none => scanUrlsFuel n t

/-- All `(group 0, group 1)` matches of the URL pattern, in order of
occurrence (`cs.length` fuel suffices: every match consumes at least one
character). -/
def scanUrls (cs : List Char) : List (List Char × List Char) :=
  scanUrlsFuel cs.length cs

/-- Python `\s` (ASCII part), as used by `str.strip` and `\s*`. -/
def isPySpace (c : Char) : Bool :=
  c = ' ' || c = '\t' || c = '\n' || c = '\r' ||
    c = Char.ofNat 11 || c = Char.ofNat 12

/-- Python `s.strip()`. -/
def pyStrip (cs : List Char) : List Char :=
  ((cs.dropWhile isPySpace).reverse.dropWhile isPySpace).reverse

/-- `re.sub(r'^\d+[\.\)]\s*', '', title)`: remove a leading run of
digits followed by `.` or `)` and trailing whitespace, if present. -/
def subNumMarker (cs : List Char) : List Char :=
  let ds := cs.takeWhile Char.isDigit
  if ds = [] then cs
  else
    match cs.drop ds.length with
    | c :: rest => if c = '.' ∨ c = ')' then rest.dropWhile isPySpace else cs
    | [] => cs

/-- `re.sub(r'^-\s*', '', title)`. -/
def subDashMarker : List Char → List Char
  | '-' :: rest => rest.dropWhile isPySpace
  | cs => cs

/-- The regex atom `by ([^"(\[]+)` anchored at the head of the list. -/
def byAt : List Char → Option (List Char)
  | c1 :: c2 :: c3 :: rest =>
    if c1 = 'b' ∧ c2 = 'y' ∧ c3 = ' ' then
      let g := rest.takeWhile (fun c => c ≠ '"' && c ≠ '(' && c ≠ '[')
      if g = [] then none else some g
    else none
  | _ => none

/-- `re.search(r'by ([^"(\[]+)', line)`. -/
def searchBy : List Char → Option (List Char)
  | [] => none
  | c :: t =>
    match byAt (c :: t) with
    | some g => some g
    | none => searchBy t

/-- `line.startswith('http')`. -/
def startsHttp (line : List Char) : Bool :=
  "http".toList.isPrefixOf line

/-- The `title_candidates` loop (lines 210–217): walk the lines of the
text, stopping at the first line that contains the url; collect each
earlier line that is non-blank and does not start with `http`,
stripped. -/
def titleCands (url : List Char) : List (List Char) → List (List Char)
  | [] => []
  | line :: rest =>
    if listContains line url then []
    else if pyStrip line ≠ [] ∧ ¬ startsHttp line then
      pyStrip line :: titleCands url rest
    else titleCands url rest

/-- One video record of `_extract_video_info`. -/
structure VideoRec where
  title : String
  channel : String
  url : String
  video_id : String
  deriving Repr, DecidableEq

/-- Context extraction for one matched url (lines 207–238): first line
containing the url, the title candidate logic with both `re.sub`
clean-ups, and the `by …` channel search. -/
def mkRecord (text : List Char) (m : List Char × List Char) : VideoRec :=
  let lines := pySplit '\n' text
  let lineWithUrl := (lines.filter (fun l => listContains l m.1)).headD []
  let cands := titleCands m.1 lines
  let title0 := cands.getLastD "Unknown Title".toList
  let title := subDashMarker (subNumMarker title0)
  let channel := match searchBy lineWithUrl with
    | some g => pyStrip g
    | none => "Unknown Channel".toList
  { title := String.mk title
    channel := String.mk channel
    url := String.mk m.1
    video_id := String.mk m.2 }

/-- `_extract_video_info` (lines 204–247): one record per regex match of
the YouTube-URL pattern, in order of occurrence. -/
def extract_video_info (text : String) : List VideoRec :=
  (scanUrls text.toList).map (mkRecord text.toList)

/-! ### Declarative reading of claim C3 -/

/-- The literal part of a URL "of the form
`https?://(www.)?youtube.com/watch?v=ID` or `https?://(www.)?youtu.be/ID`":
scheme with or without `s`, optional `www.`, and one of the two host
forms. -/
def specUrlText (s w alt : Bool) : List Char :=
  "http".toList ++ (if s then ['s'] else []) ++ "://".toList ++
    (if w then "www.".toList else []) ++
    (if alt then "youtube.com/watch?v=".toList else "youtu.be/".toList)

/-- The character list starts an occurrence of the URL form: the literal
part followed by at least one ID character. -/
def StartsUrl (cs : List Char) : Prop :=
  ∃ (s w alt : Bool) (c : Char) (rest : List Char),
    cs = specUrlText s w alt ++ c :: rest ∧ isIdChar c = true

/-- Declarative reading of claim C3: scanning the text left to right,
each occurrence of the URL form — the literal part followed by a
non-empty maximal run of ID characters — contributes one `(url, id)`
pair, in order; positions that do not start an occurrence are skipped;
matches do not overlap (scanning resumes after the matched text). -/
inductive ScanSpec : List Char → List (List Char × List Char) → Prop
  | nil : ScanSpec [] []
  | found (s w alt : Bool) (idc rest : List Char)
      (r : List (List Char × List Char)) :
      idc ≠ [] → (∀ c ∈ idc, isIdChar c = true) →
      (∀ c, rest.head? = some c → isIdChar c = false) →
      ScanSpec rest r →
      ScanSpec (specUrlText s w alt ++ idc ++ rest)
        ((specUrlText s w alt ++ idc, idc) :: r)
  | skip (c : Char) (cs : List Char) (r : List (List Char × List Char)) :
      ¬ StartsUrl (c :: cs) → ScanSpec cs r → ScanSpec (c :: cs) r

end CrewaiEnh

/-! ### Declarative reading of claim C8 (`_extract_video_id`) -/

/-- "The substring after the last `/`" (the whole string when it has
no `/`). -/
def afterLastSlash (cs : List Char) : List Char :=
  (cs.reverse.takeWhile (fun c => c ≠ '/')).reverse

/-- "Truncated at the first `?`". -/
def beforeFirstQ (cs : List Char) : List Char :=
  cs.takeWhile (fun c => c ≠ '?')

/-- "The characters after `v=`" (after its first occurrence; empty when
there is none). -/
def afterFirstVEq : List Char → List Char
  | [] => []
  | c :: t => if c = 'v' ∧ t.head? = some '=' then t.tail else afterFirstVEq t

/-- "Up to the next `&`". -/
def beforeFirstAmp (cs : List Char) : List Char :=
  cs.takeWhile (fun c => c ≠ '&')

/-- Claim C8 read literally: inputs containing `youtu.be` map to the
substring after the last `/` truncated at the first `?`; otherwise
inputs containing `youtube.com/watch` with a `v=` parameter map to the
characters after `v=` up to the next `&`; every other input is returned
unchanged. -/
def claimC8 (url : String) : String :=
  if strContains url "youtu.be" then
    String.mk (beforeFirstQ (afterLastSlash url.toList))
  else if strContains url "youtube.com/watch" ∧ strContains url "v=" then
    String.mk (beforeFirstAmp (afterFirstVEq url.toList))
  else url

/-- Position `n` of `cs` starts a `v=` that the regex `v=([^&]+)` can
match: `v=` followed by at least one character other than `&`. -/
def VEqAtPos (cs : List Char) (n : Nat) : Prop :=
  ∃ rest, cs.drop n = 'v' :: '=' :: rest ∧
    rest.takeWhile (fun c => c ≠ '&') ≠ []

/-! ## Association-list (Python dict) lemmas -/

namespace PyDict

variable {α β : Type}

theorem keys_dmodify (d : PyDict α) (k : String) (f : α → α) :
    (d.dmodify k f).keys = d.keys := by
  induction d with
  | nil => rfl
  | cons e rest ih =>
    obtain ⟨k', v⟩ := e
    by_cases h : k' = k
    · simp [dmodify, keys, h]
    · simp only [dmodify, if_neg h, keys, List.map_cons, List.cons.injEq,
        true_and]
      exact ih

theorem dset_of_not_mem (d : PyDict α) (k : String) (v : α)
    (h : k ∉ d.keys) : d.dset k v = d ++ [(k, v)] := by
  induction d with
  | nil => rfl
  | cons e rest ih =>
    obtain ⟨k', v'⟩ := e
    have h1 : ¬ k' = k := by
      intro hk
      exact h (by simp [keys, hk])
    have h2 : k ∉ keys rest := by
      intro hk
      exact h (by simp [keys] at hk ⊢; exact Or.inr hk)
    simp only [dset, if_neg h1, List.cons_append, List.cons.injEq, true_and]
    exact ih h2

theorem keys_dset (d : PyDict α) (k : String) (v : α) :
    (d.dset k v).keys = if k ∈ d.keys then d.keys else d.keys ++ [k] := by
  induction d with
  | nil => simp [dset, keys]
  | cons e rest ih =>
    obtain ⟨k', v'⟩ := e
    by_cases h : k' = k
    · subst h
      simp [dset, keys]
    · have hkk : ¬ k = k' := fun hk => h hk.symm
      simp only [dset, if_neg h, keys, List.map_cons, List.mem_cons] at ih ⊢
      rw [ih]
      by_cases hm : k ∈ rest.map Prod.fst
      · simp [hm, hkk]
      · simp [hm, hkk]

theorem keysNodup_dset (d : PyDict α) (k : String) (v : α)
    (h : d.keysNodup) : (d.dset k v).keysNodup := by
  unfold keysNodup at *
  rw [keys_dset]
  split
  · exact h
  · next hk =>
    refine List.Nodup.append h (List.nodup_singleton k) ?_
    intro a ha hb
    rw [List.mem_singleton] at hb
    exact hk (hb ▸ ha)

theorem dget_map_snd (f : α → β) (l : List (String × α)) (k : String) :
    dget (l.map fun e => (e.1, f e.2)) k = (dget l k).map f := by
  induction l with
  | nil => rfl
  | cons e rest ih =>
    obtain ⟨k', v⟩ := e
    by_cases h : k' = k <;> simp [dget, h, ih]

theorem keys_map_snd (f : α → β) (l : List (String × α)) :
    keys (l.map fun e => (e.1, f e.2)) = keys l := by
  simp [keys, List.map_map]

/-- `dmodify` on an alist of the shape `l.map (t, g t)` with distinct
keys rewrites the value at `x` pointwise. -/
theorem dmodify_map (l : List String) (g : String → α) (x : String)
    (F : α → α) (h : l.Nodup) :
    dmodify (l.map fun t => (t, g t)) x F =
      l.map fun t => (t, if t = x then F (g t) else g t) := by
  induction l with
  | nil => rfl
  | cons a l ih =>
    rcases List.nodup_cons.mp h with ⟨ha, hl⟩
    by_cases hax : a = x
    · subst hax
      have hmap : (l.map fun t => (t, if t = a then F (g t) else g t))
          = l.map fun t => (t, g t) :=
        List.map_congr_left (fun t ht => by
          have hta : ¬ t = a := fun he => ha (he ▸ ht)
          simp [hta])
      simp [dmodify, hmap]
    · simp [dmodify, hax, ih hl]

/-- `dset` fold building a fresh dict from pairs with distinct keys. -/
theorem foldl_dset_pairs (f : String × α → β) :
    ∀ (l : List (String × α)) (acc : PyDict β),
      (l.map Prod.fst).Nodup → (∀ e ∈ l, e.1 ∉ acc.keys) →
      l.foldl (fun d e => d.dset e.1 (f e)) acc =
        acc ++ l.map (fun e => (e.1, f e)) := by
  intro l
  induction l with
  | nil => intro acc _ _; simp
  | cons e l ih =>
    intro acc hnd hacc
    simp only [List.map_cons, List.nodup_cons] at hnd
    simp only [List.foldl_cons]
    rw [dset_of_not_mem acc e.1 (f e) (hacc e (List.mem_cons_self e l))]
    have hfresh : ∀ e' ∈ l, e'.1 ∉ keys (acc ++ [(e.1, f e)]) := by
      intro e' he' hk
      simp only [keys, List.map_append, List.mem_append, List.map_cons,
        List.map_nil, List.mem_singleton] at hk
      rcases hk with h1 | h2
      · exact hacc e' (List.mem_cons_of_mem e he') h1
      · exact hnd.1 (h2 ▸ List.mem_map_of_mem Prod.fst he')
    rw [ih (acc ++ [(e.1, f e)]) hnd.2 hfresh]
    simp

/-- Folding a per-key `dset` of a constant over distinct keys builds the
keyed dict. -/
theorem foldl_dset_const (v : α) :
    ∀ (l : List String) (acc : PyDict α),
      l.Nodup → (∀ t ∈ l, t ∉ acc.keys) →
      l.foldl (fun d t => d.dset t v) acc = acc ++ l.map (fun t => (t, v)) := by
  intro l
  induction l with
  | nil => intro acc _ _; simp
  | cons a l ih =>
    intro acc hnd hacc
    simp only [List.nodup_cons] at hnd
    simp only [List.foldl_cons]
    rw [dset_of_not_mem acc a v (hacc a (List.mem_cons_self a l))]
    have hfresh : ∀ t ∈ l, t ∉ keys (acc ++ [(a, v)]) := by
      intro t ht hk
      simp only [keys, List.map_append, List.mem_append, List.map_cons,
        List.map_nil, List.mem_singleton] at hk
      rcases hk with h1 | h2
      · exact hacc t (List.mem_cons_of_mem a ht) h1
      · exact hnd.1 (h2 ▸ ht)
    rw [ih (acc ++ [(a, v)]) hnd.2 hfresh]
    simp

theorem dmodify_dset_same (d : PyDict α) (k : String) (v : α) (f : α → α) :
    (d.dset k v).dmodify k f = d.dset k (f v) := by
  induction d with
  | nil => simp [dset, dmodify]
  | cons e rest ih =>
    obtain ⟨k', v'⟩ := e
    by_cases h : k' = k <;> simp [dset, dmodify, h, ih]

/-- If every fold step preserves the key list, so does the whole fold. -/
theorem keys_foldl {γ : Type} (f : PyDict α → γ → PyDict α)
    (h : ∀ d x, (f d x).keys = d.keys) :
    ∀ (l : List γ) (d : PyDict α), (l.foldl f d).keys = d.keys := by
  intro l
  induction l with
  | nil => intro d; rfl
  | cons x l ih => intro d; rw [List.foldl_cons, ih, h]

end PyDict

/-! ## Equational characterization of `_find_topic_mentions` and
`_generate_timestamp_links` -/

namespace YT

/-- One segment's inner loop over the topics, on a dict keyed by the
(distinct) topics: the value at each topic `t` gains the segment's
mention exactly when `t` matches the segment. -/
theorem foldl_topics_step (seg : Segment) (topics : List String)
    (htn : topics.Nodup) :
    ∀ (l : List String) (g : String → List Mention), l.Nodup →
      l.foldl
        (fun res topic =>
          if topicMatches topic seg then
            PyDict.dmodify res topic (fun ms => ms ++ [mkMention seg])
          else res)
        (topics.map fun t => (t, g t)) =
      topics.map fun t =>
        (t, if t ∈ l ∧ topicMatches t seg = true
            then g t ++ [mkMention seg] else g t) := by
  intro l
  induction l with
  | nil =>
    intro g _
    refine (List.map_congr_left (fun t _ => ?_)).symm
    simp
  | cons a l ih =>
    intro g hnd
    rcases List.nodup_cons.mp hnd with ⟨ha, hl⟩
    simp only [List.foldl_cons]
    by_cases hca : topicMatches a seg = true
    · rw [if_pos hca,
        PyDict.dmodify_map topics g a (fun ms => ms ++ [mkMention seg]) htn,
        ih (fun t => if t = a then g t ++ [mkMention seg] else g t) hl]
      refine List.map_congr_left (fun t _ => ?_)
      by_cases hta : t = a
      · subst hta
        have htl : t ∉ l := ha
        simp [htl, hca]
      · by_cases htl : t ∈ l
        · simp [hta, htl]
        · simp [hta, htl]
    · rw [if_neg hca, ih g hl]
      refine List.map_congr_left (fun t _ => ?_)
      by_cases hta : t = a
      · subst hta
        simp [hca]
      · by_cases htl : t ∈ l
        · simp [hta, htl]
        · simp [hta, htl]

/-- The transcript fold, on a dict keyed by the distinct topics:
each topic's value collects the mentions of its matching segments in
transcript order. -/
theorem foldl_transcript (topics : List String) (htn : topics.Nodup) :
    ∀ (ts : List Segment) (g : String → List Mention),
      ts.foldl
        (fun res seg =>
          topics.foldl
            (fun res topic =>
              if topicMatches topic seg then
                PyDict.dmodify res topic (fun ms => ms ++ [mkMention seg])
              else res)
            res)
        (topics.map fun t => (t, g t)) =
      topics.map fun t =>
        (t, g t ++ (ts.filter (fun seg => topicMatches t seg)).map mkMention) := by
  intro ts
  induction ts with
  | nil =>
    intro g
    refine (List.map_congr_left (fun t _ => ?_)).symm
    simp
  | cons seg ts ih =>
    intro g
    simp only [List.foldl_cons]
    rw [foldl_topics_step seg topics htn topics g htn]
    have hpt :
        (topics.map fun t =>
          (t, if t ∈ topics ∧ topicMatches t seg = true
              then g t ++ [mkMention seg] else g t)) =
        topics.map fun t =>
          (t, if topicMatches t seg = true
              then g t ++ [mkMention seg] else g t) :=
      List.map_congr_left (fun t ht => by simp [ht])
    rw [hpt,
      ih (fun t => if topicMatches t seg = true
        then g t ++ [mkMention seg] else g t)]
    refine List.map_congr_left (fun t _ => ?_)
    by_cases hc : topicMatches t seg = true
    · simp [hc, List.filter_cons]
    · simp [hc, List.filter_cons]

/-- `_find_topic_mentions`, for pairwise-distinct topics, is the keyed
dict mapping each topic to the mentions of its matching segments in
transcript order. -/
theorem find_topic_mentions_eq (ts : List Segment) (topics : List String)
    (htn : topics.Nodup) :
    find_topic_mentions ts topics =
      topics.map fun t =>
        (t, (ts.filter (fun seg => topicMatches t seg)).map mkMention) := by
  unfold find_topic_mentions
  have hinit :
      topics.foldl (fun d t => PyDict.dset d t []) ([] : PyDict (List Mention)) =
      topics.map fun t => (t, ([] : List Mention)) := by
    have := PyDict.foldl_dset_const ([] : List Mention) topics [] htn
      (by intro t _ hk; simp [PyDict.keys] at hk)
    simpa using this
  rw [hinit, foldl_transcript topics htn ts (fun _ => [])]
  simp

/-- `result[topic] = []` followed by appending each linked occurrence is
one `dset` of the fully linked list. -/
theorem foldl_linked_dset (vid : String) (k : String) :
    ∀ (occ : List Mention) (res : PyDict (List LinkedMention))
      (v : List LinkedMention),
      occ.foldl
        (fun r o => PyDict.dmodify r k (fun ls => ls ++ [mkLinked vid o]))
        (PyDict.dset res k v) =
      PyDict.dset res k (v ++ occ.map (mkLinked vid)) := by
  intro occ
  induction occ with
  | nil => intro res v; simp
  | cons o occ ih =>
    intro res v
    simp only [List.foldl_cons]
    rw [PyDict.dmodify_dset_same res k v (fun ls => ls ++ [mkLinked vid o]),
      ih res (v ++ [mkLinked vid o])]
    simp

/-- `_generate_timestamp_links`, on a dict with distinct keys (as every
dict produced by the code is), maps each topic's list pointwise. -/
theorem generate_timestamp_links_eq (vid : String)
    (mentions : PyDict (List Mention)) (h : mentions.keysNodup) :
    generate_timestamp_links vid mentions =
      mentions.map fun e => (e.1, e.2.map (mkLinked vid)) := by
  unfold generate_timestamp_links
  have hfn : ∀ (res : PyDict (List LinkedMention))
      (entry : String × List Mention),
      entry.2.foldl
        (fun res occ =>
          PyDict.dmodify res entry.1 (fun ls => ls ++ [mkLinked vid occ]))
        (PyDict.dset res entry.1 []) =
      PyDict.dset res entry.1 (entry.2.map (mkLinked vid)) := by
    intro res entry
    simpa using foldl_linked_dset vid entry.1 entry.2 res []
  rw [List.foldl_ext _ _ _ (fun res entry _ => hfn res entry)]
  have := PyDict.foldl_dset_pairs
    (fun e : String × List Mention => e.2.map (mkLinked vid)) mentions []
    h (by intro e _ hk; simp [PyDict.keys] at hk)
  simpa using this

/-- The initial per-topic dict has pairwise-distinct keys even when the
topic list repeats (a repeated topic overwrites its own entry). -/
theorem keysNodup_init (topics : List String) :
    ∀ (acc : PyDict (List Mention)), acc.keysNodup →
      (topics.foldl (fun d t => PyDict.dset d t []) acc).keysNodup := by
  induction topics with
  | nil => intro acc h; exact h
  | cons a topics ih =>
    intro acc h
    simp only [List.foldl_cons]
    exact ih (PyDict.dset acc a []) (PyDict.keysNodup_dset acc a [] h)

/-- The mention dict built by `_find_topic_mentions` always has
pairwise-distinct keys. -/
theorem keysNodup_find_topic_mentions (ts : List Segment)
    (topics : List String) : (find_topic_mentions ts topics).keysNodup := by
  unfold find_topic_mentions
  have hkeys :
      PyDict.keys (ts.foldl
        (fun res seg =>
          topics.foldl
            (fun res topic =>
              if topicMatches topic seg then
                PyDict.dmodify res topic (fun ms => ms ++ [mkMention seg])
              else res)
            res)
        (topics.foldl (fun d t => PyDict.dset d t []) ([] : PyDict (List Mention)))) =
      PyDict.keys (topics.foldl (fun d t => PyDict.dset d t [])
        ([] : PyDict (List Mention))) := by
    refine PyDict.keys_foldl _ (fun d seg => ?_) ts _
    refine PyDict.keys_foldl _ (fun d topic => ?_) topics d
    by_cases hc : topicMatches topic seg = true
    · simp [hc, PyDict.keys_dmodify]
    · simp [hc]
  unfold PyDict.keysNodup
  rw [hkeys]
  exact keysNodup_init topics [] (by simp [PyDict.keysNodup, PyDict.keys])

/-- The `mention_counts` dict comprehension, on a dict with distinct
keys, is the pointwise length map. -/
theorem mention_counts_of_eq (topic_mentions : PyDict (List Mention))
    (h : topic_mentions.keysNodup) :
    mention_counts_of topic_mentions =
      topic_mentions.map fun e => (e.1, e.2.length) := by
  unfold mention_counts_of
  have := PyDict.foldl_dset_pairs
    (fun e : String × List Mention => e.2.length) topic_mentions []
    h (by intro e _ hk; simp [PyDict.keys] at hk)
  simpa using this

end YT

/-! ## Python numeric lemmas -/

theorem ratFloor_eq_floor (q : ℚ) : Rat.floor q = ⌊q⌋ :=
  (Rat.floor_def' q).trans Rat.floor_def.symm

theorem ratCeil_eq_ceil (q : ℚ) : -Rat.floor (-q) = ⌈q⌉ := by
  rw [ratFloor_eq_floor, Int.floor_neg, neg_neg]

theorem pyInt_intCast (n : ℤ) : pyInt (n : ℚ) = n := by
  unfold pyInt
  split
  · rw [ratCeil_eq_ceil]
    exact Int.ceil_intCast n
  · rw [ratFloor_eq_floor]
    exact Int.floor_intCast n

theorem pyInt_of_nonneg {q : ℚ} (h : 0 ≤ q) : pyInt q = ⌊q⌋ := by
  unfold pyInt
  rw [if_neg (not_lt.mpr h), ratFloor_eq_floor]

theorem pyInt_pyFloorDiv (s y : ℚ) : pyInt (pyFloorDiv s y) = ⌊s / y⌋ := by
  unfold pyFloorDiv
  rw [ratFloor_eq_floor]
  exact pyInt_intCast _

/-- `int(s % 60)` in the source equals `⌊s⌋ % 60` (for every rational
`s`: the Python modulus is always non-negative). -/
theorem pyInt_pyMod_sixty (s : ℚ) : pyInt (pyMod s 60) = ⌊s⌋ % 60 := by
  have hq : (0 : ℚ) < 60 := by norm_num
  have h1 : ((⌊s / 60⌋ : ℤ) : ℚ) * 60 ≤ s := (le_div_iff₀ hq).mp (Int.floor_le _)
  have h2 : s < (((⌊s / 60⌋ : ℤ) : ℚ) + 1) * 60 :=
    (div_lt_iff₀ hq).mp (Int.lt_floor_add_one _)
  have hmodeq : pyMod s 60 = s - ((60 * ⌊s / 60⌋ : ℤ) : ℚ) := by
    unfold pyMod pyFloorDiv
    rw [ratFloor_eq_floor]
    push_cast
    ring
  have hfl : ⌊pyMod s 60⌋ = ⌊s⌋ - 60 * ⌊s / 60⌋ := by
    rw [hmodeq, Int.floor_sub_int]
  have hnonneg : 0 ≤ pyMod s 60 := by
    rw [hmodeq]
    push_cast
    linarith
  have hlo : 60 * ⌊s / 60⌋ ≤ ⌊s⌋ := by
    rw [Int.le_floor]
    push_cast
    linarith
  have hhi : ⌊s⌋ < 60 * (⌊s / 60⌋ + 1) := by
    rw [Int.floor_lt]
    push_cast
    linarith
  unfold pyInt
  rw [if_neg (not_lt.mpr hnonneg), ratFloor_eq_floor, hfl]
  omega

/-! ## Claim C1 -/

/-- Claim C1, counterexample: with the duplicated topic list
`["a", "a"]` and a single matching segment, the entry for `"a"` holds
two mentions, while the claim — one mention per matching segment, of
which there is exactly one — demands one. -/
theorem claim_C1_counterexample :
    (PyDict.dget
      (YT.find_topic_mentions [{ text := "a b", start := 0 }] ["a", "a"])
      "a").map List.length = some 2 ∧
    (List.filter (fun seg => YT.topicMatches "a" seg)
      [{ text := "a b", start := 0 }]).length = 1 := by
  exact ⟨by decide, by decide⟩

/-- Claim C1 (amended: the topics pairwise distinct — with a repeated
topic the single dict entry receives one mention per duplicate):
`_find_topic_mentions` returns the dict whose keys are exactly the given
topics in order, the entry of each topic `t` holding one mention per
transcript segment whose lower-cased text contains the lower-cased `t`
as a substring, in transcript order. -/
theorem claim_C1 (transcript : List Segment) (topics : List String)
    (htn : topics.Nodup) :
    YT.find_topic_mentions transcript topics =
      topics.map fun t =>
        (t, (transcript.filter (fun seg => YT.topicMatches t seg)).map
          YT.mkMention) :=
  YT.find_topic_mentions_eq transcript topics htn

/-- Claim C1 witness: a concrete two-topic transcript evaluation. -/
theorem claim_C1_witness :
    (["hello", "hi"] : List String).Nodup ∧
    YT.find_topic_mentions [{ text := "Say Hello!", start := 61 }]
        ["hello", "hi"] =
      [("hello", [YT.mkMention (Segment.mk "Say Hello!" 61)]),
       ("hi", [])] := by
  refine ⟨by decide, ?_⟩
  rw [claim_C1 _ _ (by decide)]
  have hm : YT.topicMatches "hello" (Segment.mk "Say Hello!" 61) = true := by
    decide
  have hn : YT.topicMatches "hi" (Segment.mk "Say Hello!" 61) = false := by
    decide
  simp [hm, hn]

/-! ## Claim C2 -/

/-- Claim C2: for a mention at start time `s ≥ 0` the recorded
`timestamp` is `⌊s/60⌋` minutes and `⌊s⌋ mod 60` seconds zero-padded to
two digits and separated by `:`, the `youtube_timestamp` is `⌊s⌋`, and
`_generate_timestamp_links` extends every mention of its input with a
`timestamp_link` of the form
`https://www.youtube.com/watch?v=<id>&t=<⌊s⌋>s`, preserving every other
field, the topics, and the order of mentions. -/
theorem claim_C2 (seg : Segment) (vid : String)
    (mentions : PyDict (List Mention))
    (hs : 0 ≤ seg.start) (hnd : mentions.keysNodup)
    (hpos : ∀ e ∈ mentions, ∀ occ ∈ e.2, 0 ≤ occ.time_in_seconds) :
    (YT.mkMention seg).timestamp =
      pad2 ⌊seg.start / 60⌋ ++ ":" ++ pad2 (⌊seg.start⌋ % 60) ∧
    (YT.mkMention seg).youtube_timestamp = ⌊seg.start⌋ ∧
    (YT.mkMention seg).time_in_seconds = seg.start ∧
    (YT.mkMention seg).text = seg.text ∧
    YT.generate_timestamp_links vid mentions =
      mentions.map fun e => (e.1, e.2.map fun occ =>
        { occ with timestamp_link :=
            "https://www.youtube.com/watch?v=" ++ vid ++ "&t=" ++
              toString ⌊occ.time_in_seconds⌋ ++ "s" }) := by
  refine ⟨?_, ?_, rfl, rfl, ?_⟩
  · show pad2 (pyInt (pyFloorDiv seg.start 60)) ++ ":" ++
      pad2 (pyInt (pyMod seg.start 60)) = _
    rw [pyInt_pyFloorDiv, pyInt_pyMod_sixty]
  · exact pyInt_of_nonneg hs
  · rw [YT.generate_timestamp_links_eq vid mentions hnd]
    refine List.map_congr_left (fun e he => ?_)
    refine congrArg (fun l => (e.1, l)) ?_
    refine List.map_congr_left (fun occ ho => ?_)
    unfold YT.mkLinked
    rw [pyInt_of_nonneg (hpos e he occ ho)]

/-- Claim C2 witness: a mention at 61 s renders `01:01`, and link
generation on a one-topic dict produces the `&t=61s` link. -/
theorem claim_C2_witness :
    (YT.mkMention (Segment.mk "x" 61)).timestamp = "01:01" ∧
    YT.generate_timestamp_links "dQ"
        [("t", [YT.mkMention (Segment.mk "x" 61)])] =
      [("t",
        [{ toMention := YT.mkMention (Segment.mk "x" 61)
           timestamp_link := "https://www.youtube.com/watch?v=dQ&t=61s" }])] := by
  have e1 : ⌊(61 : ℚ) / 60⌋ = 1 := by norm_num [Int.floor_eq_iff]
  have e2 : ⌊(61 : ℚ)⌋ = 61 := by norm_num
  have hpos : (0 : ℚ) ≤ (Segment.mk "x" 61).start := by norm_num
  have h := claim_C2 (Segment.mk "x" 61) "dQ"
    [("t", [YT.mkMention (Segment.mk "x" 61)])]
    hpos (by decide)
    (by
      intro e he occ ho
      simp only [List.mem_singleton] at he
      subst he
      simp only [List.mem_singleton] at ho
      subst ho
      exact hpos)
  refine ⟨h.1.trans ?_, h.2.2.2.2.trans ?_⟩
  · show pad2 ⌊(61 : ℚ) / 60⌋ ++ ":" ++ pad2 (⌊(61 : ℚ)⌋ % 60) = "01:01"
    rw [e1, e2]
    decide
  · simp only [List.map_cons, List.map_nil]
    have e3 : ⌊(YT.mkMention (Segment.mk "x" 61)).time_in_seconds⌋ = 61 := e2
    rw [e3]
    rfl

/-! ## Claim C10 -/

/-- Claim C10: the transcript-analysis core duplicated between
`YouTubeTranscriptTool` and `EnhancedYouTubeTranscriptTool` computes the
same functions. -/
theorem claim_C10 :
    (∀ (transcript : List Segment) (topics : List String),
      YT.find_topic_mentions transcript topics =
        Enh.find_topic_mentions transcript topics) ∧
    (∀ (vid : String) (mentions : PyDict (List Mention)),
      YT.generate_timestamp_links vid mentions =
        Enh.generate_timestamp_links vid mentions) :=
  ⟨fun _ _ => rfl, fun _ _ => rfl⟩

/-! ## Claim C4 -/

/-- Claim C4 (code bug): with both `video_url` and `query` absent the
endpoint runs no crew, but the `HTTPException(400, ...)` raised inside
the `try:` block is caught by the endpoint's own `except Exception` and
re-raised as a 500 whose detail wraps the intended message — not the
claimed 400. -/
theorem claim_C4 (kick : Except String String) :
    Api.analyze_youtube none none kick =
      (Except.error
        { status_code := 500
          detail :=
            "An error occurred: 400: Either video_url or query must be provided" },
       0) := rfl

/-! ## Claim C5 -/

/-- Claim C5: `send_task_to_frontend` performs no RPC and returns
`ERROR` on an empty room; with participants present it performs exactly
one RPC, to the first participant only, returning `SUCCESS` exactly when
that RPC completes and `ERROR` (without raising) on timeout or any other
exception. -/
theorem claim_C5 (task_type : String) (participants : List String)
    (rpc : String → LiveKit.RpcOutcome) :
    (participants = [] →
      LiveKit.send_task_to_frontend task_type participants rpc =
        ({ status := "ERROR"
           message := "No remote participants to send the task to."
           frontend_response := none }, [])) ∧
    (∀ p rest, participants = p :: rest →
      (LiveKit.send_task_to_frontend task_type participants rpc).2 = [p] ∧
      ((LiveKit.send_task_to_frontend task_type participants rpc).1.status =
          "SUCCESS" ↔ ∃ resp, rpc p = .ok resp) ∧
      (rpc p = .timeout →
        (LiveKit.send_task_to_frontend task_type participants rpc).1.status =
          "ERROR") ∧
      (∀ m, rpc p = .exc m →
        (LiveKit.send_task_to_frontend task_type participants rpc).1.status =
          "ERROR")) := by
  constructor
  · intro h
    subst h
    rfl
  · intro p rest h
    subst h
    cases hr : rpc p with
    | ok resp => simp [LiveKit.send_task_to_frontend, hr]
    | timeout => simp [LiveKit.send_task_to_frontend, hr]
    | exc m => simp [LiveKit.send_task_to_frontend, hr]

/-- Claim C5 witness: an empty room returns `ERROR` with no RPC;
a room with one participant gets exactly one RPC and `ERROR` on
timeout. -/
theorem claim_C5_witness :
    LiveKit.send_task_to_frontend "Youtube" []
        (fun _ => LiveKit.RpcOutcome.timeout) =
      ({ status := "ERROR"
         message := "No remote participants to send the task to."
         frontend_response := none }, []) ∧
    (LiveKit.send_task_to_frontend "Youtube" ["alice"]
        (fun _ => LiveKit.RpcOutcome.timeout)).2 = ["alice"] ∧
    (LiveKit.send_task_to_frontend "Youtube" ["alice"]
        (fun _ => LiveKit.RpcOutcome.timeout)).1.status = "ERROR" :=
  ⟨(claim_C5 "Youtube" [] _).1 rfl,
   ((claim_C5 "Youtube" ["alice"] _).2 "alice" [] rfl).1,
   ((claim_C5 "Youtube" ["alice"] _).2 "alice" [] rfl).2.2.1 rfl⟩

/-! ## Claim C6 -/

namespace Transcription

/-- The enabled path passes every event through unchanged provided no
final/interim event has an empty alternatives list. -/
theorem processEnabled_no_crash (events : List SpeechEvent)
    (h : ∀ e ∈ events,
      (e.type = EvType.finalTranscript ∨ e.type = EvType.interimTranscript) →
      e.alternatives ≠ []) :
    processEnabled events = (events, false) := by
  induction events with
  | nil => rfl
  | cons e rest ih =>
    have hcrash : handlerCrashes e = false := by
      unfold handlerCrashes
      by_cases halt : e.alternatives = []
      · cases hty : e.type
        · exact absurd halt (h e (List.mem_cons_self e rest) (Or.inl hty))
        · exact absurd halt (h e (List.mem_cons_self e rest) (Or.inr hty))
        · simp [hty]
      · have : e.alternatives.isEmpty = false := by
          cases halts : e.alternatives
          · exact absurd halts halt
          · rfl
        simp [this]
    have htail := ih (fun e' he' => h e' (List.mem_cons_of_mem e he'))
    unfold processEnabled
    rw [if_neg (by simp [hcrash]), htail]

end Transcription

/-- Claim C6, counterexample: with transcription enabled and the default
STT node yielding one final-transcript event whose alternatives list is
empty, `event.alternatives[0]` raises `IndexError` out of the generator:
nothing is yielded, so the output differs from the node's sequence. -/
theorem claim_C6_counterexample :
    Transcription.process_stt_stream true
        [{ type := Transcription.EvType.finalTranscript, alternatives := [] }] =
      ([], true) ∧
    ([] : List Transcription.SpeechEvent) ≠
      [{ type := Transcription.EvType.finalTranscript, alternatives := [] }] :=
  ⟨rfl, by decide⟩

/-- Claim C6 (amended: provided every final/interim transcript event
carries at least one alternative — `_handle_*_transcript` index
`alternatives[0]` unconditionally): for both values of
`enable_transcription`, `process_stt_stream` yields exactly the events
of the default STT node, unchanged and in order, and the broadcast path
drops, reorders and modifies nothing. -/
theorem claim_C6 (enable : Bool) (events : List Transcription.SpeechEvent)
    (h : ∀ e ∈ events,
      (e.type = Transcription.EvType.finalTranscript ∨
       e.type = Transcription.EvType.interimTranscript) →
      e.alternatives ≠ []) :
    Transcription.process_stt_stream enable events = (events, false) := by
  unfold Transcription.process_stt_stream
  cases enable
  · simp
  · simpa using Transcription.processEnabled_no_crash events h

/-- Claim C6 witness: a final event with one alternative followed by a
non-transcript event passes through unchanged. -/
theorem claim_C6_witness :
    Transcription.process_stt_stream true
        [{ type := Transcription.EvType.finalTranscript,
           alternatives := [{ text := "hi" }] },
         { type := Transcription.EvType.otherEvent, alternatives := [] }] =
      ([{ type := Transcription.EvType.finalTranscript,
          alternatives := [{ text := "hi" }] },
        { type := Transcription.EvType.otherEvent, alternatives := [] }],
       false) :=
  claim_C6 true _ (by decide)

/-! ## Claim C7 -/

/-- Claim C7: in every success result of `_run`, `mention_counts` maps
each topic to the length of its `topic_mentions` list, the
`transcript_length` is the number of fetched segments, `video_url` is
the watch link of `video_id`, and `timestamp_links` has the same topics
as `topic_mentions` with lists of the same lengths. -/
theorem claim_C7 (video_url : String) (topics : List String)
    (dApi : Except String (PyDict String))
    (tApi : Except String (List Segment)) (rec : YT.RunOk)
    (h : YT.run_tool video_url topics dApi tApi = YT.RunResult.ok rec) :
    (∀ t, PyDict.dget rec.mention_counts t =
      (PyDict.dget rec.topic_mentions t).map List.length) ∧
    PyDict.keys rec.mention_counts = PyDict.keys rec.topic_mentions ∧
    rec.transcript_length = (YT.get_transcript tApi).length ∧
    rec.video_url = "https://www.youtube.com/watch?v=" ++ rec.video_id ∧
    PyDict.keys rec.timestamp_links = PyDict.keys rec.topic_mentions ∧
    (∀ t, (PyDict.dget rec.timestamp_links t).map List.length =
      (PyDict.dget rec.topic_mentions t).map List.length) := by
  unfold YT.run_tool at h
  by_cases he : YT.get_transcript tApi = []
  · rw [if_pos he] at h
    cases h
  · rw [if_neg he] at h
    injection h with h'
    subst h'
    have hnd := YT.keysNodup_find_topic_mentions (YT.get_transcript tApi) topics
    refine ⟨?_, ?_, rfl, rfl, ?_, ?_⟩
    · intro t
      show PyDict.dget
        (YT.mention_counts_of
          (YT.find_topic_mentions (YT.get_transcript tApi) topics)) t = _
      rw [YT.mention_counts_of_eq _ hnd]
      exact PyDict.dget_map_snd List.length _ t
    · show PyDict.keys
        (YT.mention_counts_of
          (YT.find_topic_mentions (YT.get_transcript tApi) topics)) = _
      rw [YT.mention_counts_of_eq _ hnd]
      exact PyDict.keys_map_snd List.length _
    · show PyDict.keys
        (YT.generate_timestamp_links (YT.extract_video_id video_url)
          (YT.find_topic_mentions (YT.get_transcript tApi) topics)) = _
      rw [YT.generate_timestamp_links_eq _ _ hnd]
      exact PyDict.keys_map_snd _ _
    · intro t
      show (PyDict.dget
        (YT.generate_timestamp_links (YT.extract_video_id video_url)
          (YT.find_topic_mentions (YT.get_transcript tApi) topics)) t).map
          List.length = _
      rw [YT.generate_timestamp_links_eq _ _ hnd,
        PyDict.dget_map_snd (List.map (YT.mkLinked (YT.extract_video_id video_url))) _ t]
      cases PyDict.dget (YT.find_topic_mentions (YT.get_transcript tApi) topics) t
      · rfl
      · simp

/-- Claim C7 witness: a concrete success run with one topic and one
matching segment. -/
theorem claim_C7_witness :
    YT.run_tool "https://youtu.be/abc" ["a"] (Except.error "e")
        (Except.ok [{ text := "a", start := 0 }]) =
      YT.RunResult.ok
        { video_details :=
            [("title", "Unknown"), ("channel", "Unknown"),
             ("description", "Error: e")]
          topic_mentions :=
            [("a", [YT.mkMention (Segment.mk "a" 0)])]
          timestamp_links :=
            [("a", [YT.mkLinked "abc" (YT.mkMention (Segment.mk "a" 0))])]
          mention_counts := [("a", 1)]
          transcript_length := 1
          video_id := "abc"
          video_url := "https://www.youtube.com/watch?v=abc" } ∧
    PyDict.keys
      [("a", [YT.mkLinked "abc" (YT.mkMention (Segment.mk "a" 0))])] =
      PyDict.keys [("a", [YT.mkMention (Segment.mk "a" 0)])] := by
  refine ⟨by rfl, ?_⟩
  exact (claim_C7 "https://youtu.be/abc" ["a"] (Except.error "e")
    (Except.ok [{ text := "a", start := 0 }]) _ (by rfl)).2.2.2.2.1

/-! ## Claim C9 -/

/-- Claim C9: `_run` always returns a result dict carrying a `success`
flag (every helper catches its own exceptions, so the embedding is a
total function of the oracle outcomes); the result is a failure exactly
when the fetched transcript is empty — in particular whenever the
transcript fetch raises — and every failure carries an `error` field. -/
theorem claim_C9 (video_url : String) (topics : List String)
    (dApi : Except String (PyDict String))
    (tApi : Except String (List Segment)) :
    ((YT.run_tool video_url topics dApi tApi).success = false ↔
      YT.get_transcript tApi = []) ∧
    ((YT.run_tool video_url topics dApi tApi).success = false →
      ∃ msg, (YT.run_tool video_url topics dApi tApi).errorMsg = some msg) ∧
    (∀ e, tApi = Except.error e →
      (YT.run_tool video_url topics dApi tApi).success = false ∧
      (YT.run_tool video_url topics dApi tApi).errorMsg =
        some "Could not retrieve transcript for this video") := by
  by_cases he : YT.get_transcript tApi = []
  · refine ⟨?_, ?_, ?_⟩
    · simp [YT.run_tool, he, YT.RunResult.success]
    · intro _
      exact ⟨"Could not retrieve transcript for this video",
        by simp [YT.run_tool, he, YT.RunResult.errorMsg]⟩
    · intro e hEq
      constructor
      · simp [YT.run_tool, he, YT.RunResult.success]
      · simp [YT.run_tool, he, YT.RunResult.errorMsg]
  · refine ⟨?_, ?_, ?_⟩
    · simp [YT.run_tool, he, YT.RunResult.success]
    · intro hfalse
      rw [show (YT.run_tool video_url topics dApi tApi).success = true by
        simp [YT.run_tool, he, YT.RunResult.success]] at hfalse
      cases hfalse
    · intro e hEq
      subst hEq
      exact absurd rfl he

/-- Claim C9 witness: a failing transcript fetch yields
`success = False` with the error field set. -/
theorem claim_C9_witness :
    (YT.run_tool "u" [] (Except.error "d") (Except.error "boom")).success =
      false ∧
    (YT.run_tool "u" [] (Except.error "d") (Except.error "boom")).errorMsg =
      some "Could not retrieve transcript for this video" :=
  (claim_C9 "u" [] (Except.error "d") (Except.error "boom")).2.2 "boom" rfl

/-! ## `pySplit` lemmas (for claim C8) -/

theorem pySplit_ne_nil (sep : Char) (cs : List Char) : pySplit sep cs ≠ [] := by
  induction cs with
  | nil => simp [pySplit]
  | cons c t ih =>
    unfold pySplit
    by_cases hc : c = sep
    · simp [hc]
    · simp only [if_neg hc]
      cases hps : pySplit sep t with
      | nil => simp
      | cons h rs => simp

theorem pySplit_no_sep (sep : Char) (cs : List Char) (h : sep ∉ cs) :
    pySplit sep cs = [cs] := by
  induction cs with
  | nil => rfl
  | cons c t ih =>
    have hc : ¬ c = sep := fun he => h (he ▸ List.mem_cons_self c t)
    have ht : sep ∉ t := fun hm => h (List.mem_cons_of_mem c hm)
    unfold pySplit
    rw [if_neg hc, ih ht]

theorem pySplit_singleton (sep : Char) :
    ∀ (cs h0 : List Char), pySplit sep cs = [h0] → h0 = cs ∧ sep ∉ cs := by
  intro cs
  induction cs with
  | nil =>
    intro h0 h
    simp only [pySplit, List.cons.injEq] at h
    exact ⟨h.1.symm, by simp⟩
  | cons c t ih =>
    intro h0 h
    unfold pySplit at h
    by_cases hc : c = sep
    · rw [if_pos hc] at h
      simp only [List.cons.injEq] at h
      exact absurd h.2 (pySplit_ne_nil sep t)
    · rw [if_neg hc] at h
      cases hps : pySplit sep t with
      | nil => exact absurd hps (pySplit_ne_nil sep t)
      | cons h1 rs =>
        rw [hps] at h
        simp only [List.cons.injEq] at h
        obtain ⟨h2, h3⟩ := h
        subst h3
        obtain ⟨h4, h5⟩ := ih h1 hps
        subst h4
        refine ⟨h2.symm, ?_⟩
        intro hm
        rcases List.mem_cons.mp hm with he | hm'
        · exact hc he.symm
        · exact h5 hm'

theorem takeWhile_append_sep {p : Char → Bool} {a : Char} (xs : List Char)
    (ha : p a = false) : (xs ++ [a]).takeWhile p = xs.takeWhile p := by
  rw [List.takeWhile_append]
  split
  · next hlen =>
    have hall : xs.takeWhile p = xs :=
      (List.takeWhile_prefix p).eq_of_length hlen
    rw [List.takeWhile_cons_of_neg (by simp [ha]), List.append_nil, hall]
  · rfl

theorem getLastD_pySplit (sep : Char) (cs : List Char) :
    (pySplit sep cs).getLastD [] =
      (cs.reverse.takeWhile (fun c => c ≠ sep)).reverse := by
  induction cs with
  | nil => rfl
  | cons c t ih =>
    unfold pySplit
    by_cases hc : c = sep
    · subst hc
      rw [if_pos rfl, List.getLastD_cons, ih]
      congr 1
      rw [List.reverse_cons, takeWhile_append_sep _ (by simp)]
    · rw [if_neg hc]
      cases hps : pySplit sep t with
      | nil => exact absurd hps (pySplit_ne_nil sep t)
      | cons h1 rs =>
        rw [List.getLastD_cons]
        cases hrs : rs with
        | nil =>
          subst hrs
          obtain ⟨h4, h5⟩ := pySplit_singleton sep t h1 hps
          rw [h4]
          show c :: t = _
          rw [List.reverse_cons,
            List.takeWhile_append_of_pos (by
              intro x hx
              simp only [List.mem_reverse] at hx
              simp only [ne_eq, decide_eq_true_eq]
              exact fun he => h5 (he ▸ hx)),
            List.takeWhile_cons_of_pos (by
              simp only [ne_eq, decide_eq_true_eq]
              exact hc)]
          simp
        | cons r0 rs' =>
          subst hrs
          rw [List.getLastD_cons]
          have ih2 : rs'.getLastD r0 =
              (t.reverse.takeWhile (fun c' => c' ≠ sep)).reverse := by
            rw [← ih, hps, List.getLastD_cons, List.getLastD_cons]
          rw [ih2]
          have hsep : sep ∈ t := by
            by_contra hns
            rw [pySplit_no_sep sep t hns] at hps
            simp at hps
          congr 1
          rw [List.reverse_cons, List.takeWhile_append]
          split
          · next hlen =>
            exfalso
            have hall : t.reverse.takeWhile (fun c' => decide (c' ≠ sep)) =
                t.reverse := (List.takeWhile_prefix _).eq_of_length hlen
            have hmem : sep ∈ t.reverse := List.mem_reverse.mpr hsep
            rw [← hall] at hmem
            have := List.mem_takeWhile_imp hmem
            simp at this
          · rfl

theorem headD_pySplit (sep : Char) (cs : List Char) :
    (pySplit sep cs).headD [] = cs.takeWhile (fun c => c ≠ sep) := by
  induction cs with
  | nil => rfl
  | cons c t ih =>
    unfold pySplit
    by_cases hc : c = sep
    · subst hc
      rw [if_pos rfl]
      rw [List.takeWhile_cons_of_neg (by simp)]
      rfl
    · rw [if_neg hc]
      cases hps : pySplit sep t with
      | nil => exact absurd hps (pySplit_ne_nil sep t)
      | cons h1 rs =>
        have hh : h1 = t.takeWhile (fun c' => c' ≠ sep) := by
          rw [← ih, hps]
          rfl
        rw [List.takeWhile_cons_of_pos (by
          simp only [ne_eq, decide_eq_true_eq]
          exact hc), ← hh]
        rfl

/-! ## `v=` regex scanning lemmas (for claim C8) -/

theorem vEqAt_eq_some_iff (cs g : List Char) :
    vEqAt cs = some g ↔
      ∃ rest, cs = 'v' :: '=' :: rest ∧
        g = rest.takeWhile (fun c => c ≠ '&') ∧ g ≠ [] := by
  rcases cs with _ | ⟨c1, _ | ⟨c2, rest⟩⟩
  · simp [vEqAt]
  · simp [vEqAt]
  · show (if c1 = 'v' ∧ c2 = '=' then
        (if rest.takeWhile (fun c => c ≠ '&') = [] then none
         else some (rest.takeWhile (fun c => c ≠ '&')))
      else none) = some g ↔ _
    by_cases h12 : c1 = 'v' ∧ c2 = '='
    · obtain ⟨h1, h2⟩ := h12
      subst h1
      subst h2
      rw [if_pos ⟨rfl, rfl⟩]
      by_cases hg : rest.takeWhile (fun c => c ≠ '&') = []
      · rw [if_pos hg]
        constructor
        · intro h
          cases h
        · rintro ⟨rest', he, hgg, hne⟩
          obtain ⟨rfl⟩ : rest = rest' := by
            injection he with _ he2
            injection he2
          exact absurd (hgg.trans hg) hne
      · rw [if_neg hg]
        constructor
        · intro h
          injection h with h
          subst h
          exact ⟨rest, rfl, rfl, hg⟩
        · rintro ⟨rest', he, hgg, _⟩
          obtain ⟨rfl⟩ : rest = rest' := by
            injection he with _ he2
            injection he2
          rw [hgg]
    · rw [if_neg h12]
      constructor
      · intro h
        cases h
      · rintro ⟨rest', he, _, _⟩
        injection he with e1 e2
        injection e2 with e2 _
        exact absurd ⟨e1, e2⟩ h12

theorem vEqAt_eq_none_iff (cs : List Char) :
    vEqAt cs = none ↔
      ∀ rest, cs = 'v' :: '=' :: rest →
        rest.takeWhile (fun c => c ≠ '&') = [] := by
  constructor
  · intro h rest he
    by_contra hne
    have hsome := (vEqAt_eq_some_iff cs
      (rest.takeWhile (fun c => c ≠ '&'))).mpr ⟨rest, he, rfl, hne⟩
    rw [h] at hsome
    cases hsome
  · intro h
    cases hv : vEqAt cs with
    | none => rfl
    | some g =>
      obtain ⟨rest, he, hgg, hne⟩ := (vEqAt_eq_some_iff cs g).mp hv
      exact absurd (hgg.trans (h rest he)) hne

theorem searchVEq_some_of :
    ∀ (cs : List Char) (n : Nat) (g : List Char),
      vEqAt (cs.drop n) = some g →
      (∀ m, m < n → vEqAt (cs.drop m) = none) →
      searchVEq cs = some g := by
  intro cs
  induction cs with
  | nil =>
    intro n g h _
    rw [List.drop_nil] at h
    cases h
  | cons c t ih =>
    intro n g h hmin
    cases n with
    | zero =>
      rw [List.drop_zero] at h
      unfold searchVEq
      rw [h]
    | succ n' =>
      have h0 : vEqAt (c :: t) = none := by
        have := hmin 0 (Nat.succ_pos n')
        rwa [List.drop_zero] at this
      unfold searchVEq
      rw [h0]
      apply ih n' g
      · rwa [List.drop_succ_cons] at h
      · intro m hm
        have := hmin (m + 1) (Nat.succ_lt_succ hm)
        rwa [List.drop_succ_cons] at this

theorem searchVEq_none_of :
    ∀ (cs : List Char),
      (∀ n, vEqAt (cs.drop n) = none) → searchVEq cs = none := by
  intro cs
  induction cs with
  | nil => intro _; rfl
  | cons c t ih =>
    intro h
    have h0 := h 0
    rw [List.drop_zero] at h0
    unfold searchVEq
    rw [h0]
    exact ih (fun n => by
      have := h (n + 1)
      rwa [List.drop_succ_cons] at this)

/-! ## Claim C8 -/

/-- Claim C8, counterexample: the input
`https://www.youtube.com/watch?v=` contains `youtube.com/watch` and a
`v=` parameter, so the claim demands the (here empty) characters after
`v=`; but the regex `v=([^&]+)` requires at least one non-`&` character,
fails, and the code returns the whole input unchanged. -/
theorem claim_C8_counterexample :
    YT.extract_video_id "https://www.youtube.com/watch?v=" =
      "https://www.youtube.com/watch?v=" ∧
    claimC8 "https://www.youtube.com/watch?v=" = "" ∧
    ("https://www.youtube.com/watch?v=" : String) ≠ "" :=
  ⟨by decide, by decide, by decide⟩

/-- Claim C8 (amended: the `youtube.com/watch` branch returns the
characters after the first `v=` that is followed by at least one
character other than `&`, up to the next `&`; when every `v=` is
immediately followed by `&` or ends the string the input is returned
unchanged): `_extract_video_id` is total, maps `youtu.be` inputs to the
substring after the last `/` truncated at the first `?`, and returns
every other input unchanged. -/
theorem claim_C8 (url : String) :
    (strContains url "youtu.be" = true →
      YT.extract_video_id url =
        String.mk (beforeFirstQ (afterLastSlash url.toList))) ∧
    (strContains url "youtu.be" = false →
     strContains url "youtube.com/watch" = true →
      (∀ n rest, url.toList.drop n = 'v' :: '=' :: rest →
        rest.takeWhile (fun c => c ≠ '&') ≠ [] →
        (∀ m, m < n → ¬ VEqAtPos url.toList m) →
        YT.extract_video_id url =
          String.mk (rest.takeWhile (fun c => c ≠ '&'))) ∧
      ((∀ n, ¬ VEqAtPos url.toList n) → YT.extract_video_id url = url)) ∧
    (strContains url "youtu.be" = false →
     strContains url "youtube.com/watch" = false →
      YT.extract_video_id url = url) := by
  refine ⟨?_, ?_, ?_⟩
  · intro hyb
    unfold YT.extract_video_id
    rw [if_pos hyb, getLastD_pySplit, headD_pySplit]
    rfl
  · intro hyb hyw
    constructor
    · intro n rest hdrop hne hmin
      have hAt : vEqAt (url.toList.drop n) =
          some (rest.takeWhile (fun c => c ≠ '&')) := by
        rw [hdrop]
        exact (vEqAt_eq_some_iff _ _).mpr ⟨rest, rfl, rfl, hne⟩
      have hsearch : searchVEq url.toList =
          some (rest.takeWhile (fun c => c ≠ '&')) := by
        refine searchVEq_some_of _ n _ hAt ?_
        intro m hm
        rw [vEqAt_eq_none_iff]
        intro rest' he
        by_contra hne'
        exact hmin m hm ⟨rest', he, hne'⟩
      unfold YT.extract_video_id
      rw [if_neg (by simp [hyb]), if_pos hyw, hsearch]
    · intro hnone
      have hsearch : searchVEq url.toList = none := by
        refine searchVEq_none_of _ ?_
        intro n
        rw [vEqAt_eq_none_iff]
        intro rest he
        by_contra hne
        exact hnone n ⟨rest, he, hne⟩
      unfold YT.extract_video_id
      rw [if_neg (by simp [hyb]), if_pos hyw, hsearch]
  · intro hyb hyw
    unfold YT.extract_video_id
    rw [if_neg (by simp [hyb]), if_neg (by simp [hyw])]

/-- Claim C8 witness: a `youtu.be` URL maps to the id between the last
`/` and the first `?`. -/
theorem claim_C8_witness :
    strContains "https://youtu.be/abc?t=1" "youtu.be" = true ∧
    YT.extract_video_id "https://youtu.be/abc?t=1" = "abc" := by
  refine ⟨by decide, ?_⟩
  exact ((claim_C8 "https://youtu.be/abc?t=1").1 (by decide)).trans (by decide)

/-! ## URL-scanner lemmas (for claim C3) -/

namespace CrewaiEnh

theorem stripLit_eq_some_iff :
    ∀ (p cs r : List Char), stripLit p cs = some r ↔ cs = p ++ r := by
  intro p
  induction p with
  | nil =>
    intro cs r
    simp [stripLit, eq_comm]
  | cons a p ih =>
    intro cs r
    cases cs with
    | nil => simp [stripLit]
    | cons c t =>
      unfold stripLit
      by_cases hc : c = a
      · subst hc
        rw [if_pos rfl, ih t r]
        simp
      · rw [if_neg hc]
        simp [hc]

theorem stripLit_append (p r : List Char) : stripLit p (p ++ r) = some r :=
  (stripLit_eq_some_iff p (p ++ r) r).mpr rfl

theorem idTail_sound (sPart wPart hPart r4 m i rest : List Char)
    (h : idTail sPart wPart hPart r4 = some (m, i, rest)) :
    m = "http".toList ++ sPart ++ "://".toList ++ wPart ++ hPart ++ i ∧
    i ≠ [] ∧ (∀ c ∈ i, isIdChar c = true) ∧
    (∀ c, rest.head? = some c → isIdChar c = false) ∧
    r4 = i ++ rest := by
  unfold idTail at h
  by_cases hid : r4.takeWhile isIdChar = []
  · rw [if_pos hid] at h
    cases h
  · rw [if_neg hid] at h
    simp only [Option.some.injEq, Prod.mk.injEq] at h
    obtain ⟨hm, hi, hrest⟩ := h
    have hsplit : r4 = r4.takeWhile isIdChar ++ r4.dropWhile isIdChar :=
      (List.takeWhile_append_dropWhile isIdChar r4).symm
    have hdrop : r4.drop (r4.takeWhile isIdChar).length =
        r4.dropWhile isIdChar := by
      nth_rewrite 2 [hsplit]
      exact List.drop_left _ _
    refine ⟨?_, ?_, ?_, ?_, ?_⟩
    · rw [← hm, ← hi]
    · rw [← hi]
      exact hid
    · intro c hc
      rw [← hi] at hc
      exact List.mem_takeWhile_imp hc
    · intro c hc
      rw [← hrest, hdrop] at hc
      have hd := List.head?_dropWhile_not isIdChar r4
      rw [hc] at hd
      exact hd
    · rw [← hi, ← hrest, hdrop]
      exact hsplit

theorem hostSplit_sound (r3 hPart r4 : List Char)
    (h : hostSplit r3 = some (hPart, r4)) :
    ∃ alt : Bool,
      hPart = (if alt then "youtube.com/watch?v=".toList
               else "youtu.be/".toList) ∧
      r3 = hPart ++ r4 := by
  unfold hostSplit at h
  cases h1 : stripLit "youtube.com/watch?v=".toList r3 with
  | some r4' =>
    rw [h1] at h
    simp only [Option.some.injEq, Prod.mk.injEq] at h
    obtain ⟨hh, hr⟩ := h
    refine ⟨true, by rw [← hh]; simp, ?_⟩
    rw [← hh, ← hr]
    exact (stripLit_eq_some_iff _ _ _).mp h1
  | none =>
    rw [h1] at h
    cases h2 : stripLit "youtu.be/".toList r3 with
    | none =>
      rw [h2] at h
      cases h
    | some r4' =>
      rw [h2] at h
      simp only [Option.some.injEq, Prod.mk.injEq] at h
      obtain ⟨hh, hr⟩ := h
      refine ⟨false, by rw [← hh]; simp, ?_⟩
      rw [← hh, ← hr]
      exact (stripLit_eq_some_iff _ _ _).mp h2

theorem afterWww_sound (sPart wPart r3 m i rest : List Char)
    (h : afterWww sPart wPart r3 = some (m, i, rest)) :
    ∃ alt : Bool,
      m = "http".toList ++ sPart ++ "://".toList ++ wPart ++
        (if alt then "youtube.com/watch?v=".toList
         else "youtu.be/".toList) ++ i ∧
      i ≠ [] ∧ (∀ c ∈ i, isIdChar c = true) ∧
      (∀ c, rest.head? = some c → isIdChar c = false) ∧
      r3 = (if alt then "youtube.com/watch?v=".toList
            else "youtu.be/".toList) ++ i ++ rest := by
  unfold afterWww at h
  cases hh : hostSplit r3 with
  | none =>
    rw [hh] at h
    cases h
  | some pr =>
    obtain ⟨hPart, r4⟩ := pr
    rw [hh] at h
    obtain ⟨alt, hHP, hr3⟩ := hostSplit_sound r3 hPart r4 hh
    obtain ⟨hm, hi, hid, hrest, hr4⟩ :=
      idTail_sound sPart wPart hPart r4 m i rest h
    refine ⟨alt, ?_, hi, hid, hrest, ?_⟩
    · rw [hm, hHP]
    · rw [hr3, hHP, hr4, List.append_assoc]

theorem afterScheme_sound (sPart r1 m i rest : List Char)
    (h : afterScheme sPart r1 = some (m, i, rest)) :
    ∃ w alt : Bool,
      m = "http".toList ++ sPart ++ "://".toList ++
        (if w then "www.".toList else []) ++
        (if alt then "youtube.com/watch?v=".toList
         else "youtu.be/".toList) ++ i ∧
      i ≠ [] ∧ (∀ c ∈ i, isIdChar c = true) ∧
      (∀ c, rest.head? = some c → isIdChar c = false) ∧
      r1 = "://".toList ++ (if w then "www.".toList else []) ++
        (if alt then "youtube.com/watch?v=".toList
         else "youtu.be/".toList) ++ i ++ rest := by
  unfold afterScheme at h
  cases h1 : stripLit "://".toList r1 with
  | none =>
    rw [h1] at h
    cases h
  | some r2 =>
    rw [h1] at h
    simp only [] at h
    have hr1 : r1 = "://".toList ++ r2 := (stripLit_eq_some_iff _ _ _).mp h1
    cases h2 : stripLit "www.".toList r2 with
    | some r3 =>
      rw [h2] at h
      have hr2 : r2 = "www.".toList ++ r3 := (stripLit_eq_some_iff _ _ _).mp h2
      obtain ⟨alt, hm, hi, hid, hrest, hr3⟩ :=
        afterWww_sound sPart "www.".toList r3 m i rest h
      refine ⟨true, alt, by exact hm, hi, hid, hrest, ?_⟩
      show r1 = "://".toList ++ "www.".toList ++ _ ++ i ++ rest
      rw [hr1, hr2, hr3]
      simp [List.append_assoc]
    | none =>
      rw [h2] at h
      obtain ⟨alt, hm, hi, hid, hrest, hr2⟩ :=
        afterWww_sound sPart [] r2 m i rest h
      refine ⟨false, alt, by exact hm, hi, hid, hrest, ?_⟩
      show r1 = "://".toList ++ [] ++ _ ++ i ++ rest
      rw [hr1, hr2]
      simp [List.append_assoc]

/-- Soundness of the anchored matcher: a match decomposes the input as
one of the URL forms followed by a non-empty maximal ID run. -/
theorem matchUrlAt_sound (cs m i rest : List Char)
    (h : matchUrlAt cs = some (m, i, rest)) :
    ∃ s w alt : Bool,
      m = specUrlText s w alt ++ i ∧ i ≠ [] ∧
      (∀ c ∈ i, isIdChar c = true) ∧
      (∀ c, rest.head? = some c → isIdChar c = false) ∧
      cs = m ++ rest := by
  unfold matchUrlAt at h
  cases h0 : stripLit "http".toList cs with
  | none =>
    rw [h0] at h
    cases h
  | some r0 =>
    rw [h0] at h
    simp only [] at h
    have hcs : cs = "http".toList ++ r0 := (stripLit_eq_some_iff _ _ _).mp h0
    by_cases hs : r0.head? = some 's'
    · rw [if_pos hs] at h
      obtain ⟨w, alt, hm, hi, hid, hrest, hr1⟩ :=
        afterScheme_sound ['s'] r0.tail m i rest h
      have hr0 : r0 = 's' :: r0.tail := by
        cases r0 with
        | nil => cases hs
        | cons a t =>
          simp only [List.head?_cons, Option.some.injEq] at hs
          subst hs
          rfl
      refine ⟨true, w, alt, ?_, hi, hid, hrest, ?_⟩
      · rw [hm]
        simp [specUrlText]
      · rw [hcs, hr0, hm]
        nth_rewrite 1 [hr1]
        simp [List.append_assoc]
    · rw [if_neg hs] at h
      obtain ⟨w, alt, hm, hi, hid, hrest, hr1⟩ :=
        afterScheme_sound [] r0 m i rest h
      refine ⟨false, w, alt, ?_, hi, hid, hrest, ?_⟩
      · rw [hm]
        simp [specUrlText]
      · rw [hcs, hm]
        nth_rewrite 1 [hr1]
        simp [List.append_assoc]

/-- The final ID stage succeeds as soon as the next character is an ID
character. -/
theorem idTail_isSome (sP wP hP : List Char) (c : Char) (rest : List Char)
    (hc : isIdChar c = true) :
    (idTail sP wP hP (c :: rest)).isSome = true := by
  unfold idTail
  rw [List.takeWhile_cons_of_pos hc, if_neg (by simp)]
  rfl

/-- Completeness of the anchored matcher: wherever an occurrence of the
URL form starts, the matcher succeeds. -/
theorem matchUrlAt_isSome (cs : List Char) (h : StartsUrl cs) :
    (matchUrlAt cs).isSome = true := by
  obtain ⟨s, w, alt, c, rest, hcs, hc⟩ := h
  subst hcs
  cases s <;> cases w <;> cases alt
  · exact idTail_isSome [] [] "youtu.be/".toList c rest hc
  · exact idTail_isSome [] [] "youtube.com/watch?v=".toList c rest hc
  · exact idTail_isSome [] "www.".toList "youtu.be/".toList c rest hc
  · exact idTail_isSome [] "www.".toList "youtube.com/watch?v=".toList c rest hc
  · exact idTail_isSome ['s'] [] "youtu.be/".toList c rest hc
  · exact idTail_isSome ['s'] [] "youtube.com/watch?v=".toList c rest hc
  · exact idTail_isSome ['s'] "www.".toList "youtu.be/".toList c rest hc
  · exact idTail_isSome ['s'] "www.".toList "youtube.com/watch?v=".toList c rest hc

theorem matchUrlAt_none_iff (cs : List Char) :
    matchUrlAt cs = none ↔ ¬ StartsUrl cs := by
  constructor
  · intro h hS
    have hsome := matchUrlAt_isSome cs hS
    rw [h] at hsome
    cases hsome
  · intro hS
    cases hm : matchUrlAt cs with
    | none => rfl
    | some triple =>
      obtain ⟨m, i, rest⟩ := triple
      obtain ⟨s, w, alt, hm_eq, hi_ne, hi_id, _, hcs⟩ :=
        matchUrlAt_sound cs m i rest hm
      exfalso
      apply hS
      cases i with
      | nil => exact absurd rfl hi_ne
      | cons c i' =>
        refine ⟨s, w, alt, c, i' ++ rest, ?_,
          hi_id c (List.mem_cons_self _ _)⟩
        rw [hcs, hm_eq]
        simp [List.append_assoc]

/-- The fuelled finditer driver satisfies the declarative scan
specification whenever its fuel covers the input. -/
theorem scanUrlsFuel_spec :
    ∀ (n : Nat) (cs : List Char), cs.length ≤ n →
      ScanSpec cs (scanUrlsFuel n cs) := by
  intro n
  induction n with
  | zero =>
    intro cs hl
    have : cs = [] := List.length_eq_zero.mp (Nat.le_zero.mp hl)
    subst this
    exact ScanSpec.nil
  | succ n ih =>
    intro cs hl
    cases cs with
    | nil => exact ScanSpec.nil
    | cons c t =>
      cases hm : matchUrlAt (c :: t) with
      | some triple =>
        obtain ⟨m, i, rest⟩ := triple
        obtain ⟨s, w, alt, hm_eq, hi_ne, hi_id, hrest, hcs⟩ :=
          matchUrlAt_sound _ _ _ _ hm
        rw [show scanUrlsFuel (n + 1) (c :: t) =
          (m, i) :: scanUrlsFuel n rest from by simp [scanUrlsFuel, hm]]
        have hmlen : 0 < m.length := by
          rw [hm_eq]
          cases s <;> simp [specUrlText]
        have hrl : rest.length ≤ n := by
          have hlen := congrArg List.length hcs
          simp only [List.length_cons, List.length_append] at hlen
          simp only [List.length_cons] at hl
          omega
        have hspec := ih rest hrl
        rw [hcs, hm_eq]
        exact ScanSpec.found s w alt i rest _ hi_ne hi_id hrest hspec
      | none =>
        rw [show scanUrlsFuel (n + 1) (c :: t) = scanUrlsFuel n t from by
          simp [scanUrlsFuel, hm]]
        refine ScanSpec.skip c t _ ((matchUrlAt_none_iff _).mp hm)
          (ih t ?_)
        simp only [List.length_cons] at hl
        omega

/-- The fuelled finditer driver returns `[]` exactly when no position of
the input matches. -/
theorem scanUrlsFuel_nil_iff :
    ∀ (n : Nat) (cs : List Char), cs.length ≤ n →
      (scanUrlsFuel n cs = [] ↔ ∀ k, matchUrlAt (cs.drop k) = none) := by
  intro n
  induction n with
  | zero =>
    intro cs hl
    have : cs = [] := List.length_eq_zero.mp (Nat.le_zero.mp hl)
    subst this
    simp only [scanUrlsFuel, List.drop_nil, true_iff]
    intro _
    rfl
  | succ n ih =>
    intro cs hl
    cases cs with
    | nil =>
      simp only [scanUrlsFuel, List.drop_nil, true_iff]
      intro _
      rfl
    | cons c t =>
      cases hm : matchUrlAt (c :: t) with
      | some triple =>
        rw [show scanUrlsFuel (n + 1) (c :: t) =
          (triple.1, triple.2.1) :: scanUrlsFuel n triple.2.2 from by
            simp [scanUrlsFuel, hm]]
        constructor
        · intro h
          cases h
        · intro h
          have := h 0
          rw [List.drop_zero, hm] at this
          cases this
      | none =>
        rw [show scanUrlsFuel (n + 1) (c :: t) = scanUrlsFuel n t from by
          simp [scanUrlsFuel, hm]]
        have hlt : t.length ≤ n := by
          simp only [List.length_cons] at hl
          omega
        rw [ih t hlt]
        constructor
        · intro h k
          cases k with
          | zero =>
            rw [List.drop_zero]
            exact hm
          | succ k' =>
            rw [List.drop_succ_cons]
            exact h k'
        · intro h k
          have := h (k + 1)
          rwa [List.drop_succ_cons] at this

end CrewaiEnh

/-! ## Claim C3 -/

/-- Claim C3: `_extract_video_info` returns one record per occurrence of
the YouTube-URL pattern, in order of occurrence, with the `url` field
the matched URL and the `video_id` field the matched ID (`ScanSpec` is
the claim's declarative description of the regex scan), and it returns
`[]` exactly when no position of the text starts such a URL. -/
theorem claim_C3 (text : String) :
    CrewaiEnh.ScanSpec text.toList
      ((CrewaiEnh.extract_video_info text).map
        fun r => (r.url.toList, r.video_id.toList)) ∧
    (CrewaiEnh.extract_video_info text = [] ↔
      ∀ n, ¬ CrewaiEnh.StartsUrl (text.toList.drop n)) := by
  have hmap : (CrewaiEnh.extract_video_info text).map
      (fun r => (r.url.toList, r.video_id.toList)) =
      CrewaiEnh.scanUrls text.toList := by
    unfold CrewaiEnh.extract_video_info
    rw [List.map_map]
    refine (List.map_congr_left fun p _ => ?_).trans (List.map_id _)
    rfl
  constructor
  · rw [hmap]
    exact CrewaiEnh.scanUrlsFuel_spec _ _ le_rfl
  · have hnil : CrewaiEnh.extract_video_info text = [] ↔
        CrewaiEnh.scanUrls text.toList = [] := by
      unfold CrewaiEnh.extract_video_info
      simp
    rw [hnil]
    unfold CrewaiEnh.scanUrls
    rw [CrewaiEnh.scanUrlsFuel_nil_iff _ _ le_rfl]
    constructor
    · intro h n
      exact (CrewaiEnh.matchUrlAt_none_iff _).mp (h n)
    · intro h n
      exact (CrewaiEnh.matchUrlAt_none_iff _).mpr (h n)

/-- Claim C3 witness: a two-URL text scans to its two records (also
covering the empty case on a URL-free text). -/
theorem claim_C3_witness :
    CrewaiEnh.ScanSpec
      "go https://youtu.be/a_1 now".toList
      ((CrewaiEnh.extract_video_info "go https://youtu.be/a_1 now").map
        fun r => (r.url.toList, r.video_id.toList)) ∧
    CrewaiEnh.extract_video_info "no links here" = [] :=
  ⟨(claim_C3 "go https://youtu.be/a_1 now").1, by decide⟩

end Present
